import Mathlib

/-!
A verification development for `pypgen.py`, a minimal parser-combinator
library.  The Python classes are embedded shallowly:

* `PyVal` models the dynamically typed result values (strings, ints,
  tuples from `SeqParser`, lists from `KleeneParser`);
* `ParseResult` models the `Success(value, rest)` / `Failure(expected, rest)`
  tagged results, with input strings as `List Char`;
* `Parser` is the closed family of combinator nodes
  (`ResultTransformingParser`, `SeqParser`, `OrParser`, `KleeneParser`,
  `RegexParser`, `LiteralParser`);
* `parse` is the recursive interpreter.  The Python `KleeneParser.parse`
  `while` loop can diverge (for zero-width-succeeding children), so `parse`
  is indexed by a fuel counter consumed on every recursive call:
  `parse fuel p s = none` means the computation did not finish within
  `fuel` steps, and the Python run terminates with a result exactly when
  some fuel yields `some` of it (`parse_mono` makes that reading sound).
-/

namespace Pypgen

/-- Dynamically typed Python result values produced by the combinators:
matched text, `int(...)`-transformed numbers, `SeqParser` tuples and
`KleeneParser` lists. -/
inductive PyVal : Type where
  | str : List Char → PyVal
  | int : Int → PyVal
  | tup : List PyVal → PyVal
  | list : List PyVal → PyVal

/-- The `expected` payload of a `Failure`: a single descriptive string for
atoms, or the list of the children's descriptions for `OrParser`. -/
inductive Expected : Type where
  | str : List Char → Expected
  | list : List (List Char) → Expected
deriving DecidableEq

/-- `Success(value, rest)` and `Failure(expected, rest)` from `pypgen.py`. -/
inductive ParseResult : Type where
  | success : PyVal → List Char → ParseResult
  | failure : Expected → List Char → ParseResult

/-- The `rest` attribute shared by `Success` and `Failure`. -/
def ParseResult.rest : ParseResult → List Char
  | .success _ r => r
  | .failure _ r => r

/-- Abstract syntax of the patterns handed to `re.compile`: characters,
character classes (as a `Char → Bool` test, e.g. `[0-9]`), empty pattern,
concatenation, left-preferring alternation and greedy Kleene star. -/
inductive Regex : Type where
  | eps : Regex
  | char : Char → Regex
  | cls : (Char → Bool) → Regex
  | seq : Regex → Regex → Regex
  | alt : Regex → Regex → Regex
  | star : Regex → Regex

/-- `p+` as compiled by `re`: one occurrence followed by a greedy star. -/
def Regex.plus (r : Regex) : Regex := .seq r (.star r)

/-- Greedy star iteration for `runs`: from input `s`, first try every
strictly-consuming single step (in the step function's preference order)
followed by more iterations, and offer stopping (`[s]`) last.  The `Nat`
argument only bounds the recursion; since every kept step strictly shortens
the input, passing `s.length` makes the bound never bite.  Skipping
non-consuming steps mirrors how `re` refuses to loop on zero-width star
matches. -/
def starAux (step : List Char → List (List Char)) : Nat → List Char → List (List Char)
  | 0, s => [s]
  | n + 1, s =>
    (((step s).filter (fun t => decide (t.length < s.length))).flatMap
      (fun t => starAux step n t)) ++ [s]

/-- Backtracking matcher for `Regex`, modelling the Python `re` engine:
`runs r s` lists the possible unconsumed rests of an anchored match of `r`
against `s`, in the engine's preference order (alternation prefers its left
arm, star is greedy).  `re.match` corresponds to taking the head. -/
def runs : Regex → List Char → List (List Char)
  | .eps, s => [s]
  | .char _, [] => []
  | .char c, x :: xs => if x = c then [xs] else []
  | .cls _, [] => []
  | .cls f, x :: xs => if f x then [xs] else []
  | .seq a b, s => (runs a s).flatMap (runs b)
  | .alt a b, s => runs a s ++ runs b s
  | .star a, s => starAux (runs a) s.length s

/-- `re.Pattern.match` anchored at position 0: the preferred anchored match
of `r` against `s`, returned as the unconsumed rest, or `none`. -/
def reMatch (r : Regex) (s : List Char) : Option (List Char) :=
  (runs r s).head?

/-- The closed family of combinator nodes of `pypgen.py`.

* `trans child fn fnRepr` is `ResultTransformingParser(child, fn)`; the
  extra `fnRepr` field carries `str(fn)` (Python renders the function
  object in `__str__`; the text itself is opaque to the semantics).
* `seqP children` is `SeqParser(*children)`;
* `orP children` is `OrParser(*children)`;
* `kleene child` is `KleeneParser(child)`;
* `regexP src r` is `RegexParser(src)` — `src` is the pattern source text
  (`self.regex.pattern`), `r` the result of compiling it;
* `lit s` is `LiteralParser(s)`. -/
inductive Parser : Type where
  | trans : Parser → (PyVal → PyVal) → List Char → Parser
  | seqP : List Parser → Parser
  | orP : List Parser → Parser
  | kleene : Parser → Parser
  | regexP : List Char → Regex → Parser
  | lit : List Char → Parser

/-- A single quote character, used by Python's `repr` of strings. -/
def sq : Char := Char.ofNat 39

/-- Python's `repr` of a string (single-quoted), as rendered inside
`"%s" % [str(p) for p in parsers]`. -/
def pyQuote (s : List Char) : List Char := sq :: (s ++ [sq])

/-- Python's rendering of a list of strings, `['a', 'b']`. -/
def pyReprStrList (xs : List (List Char)) : List Char :=
  '[' :: (List.intercalate (", ".data) (xs.map pyQuote) ++ [']'])

/-- `str(p)` for each combinator, following the `__str__` methods.
`OrParser` defines no `__str__`, so Python falls back to the default object
`repr`; the memory address in it is elided here. -/
def describe : Parser → List Char
  | .trans p _ fnRepr =>
    "ResultTransformingParser(".data ++ describe p ++ ", ".data ++ fnRepr ++ ")".data
  | .seqP ps =>
    "SeqParser(".data ++ pyReprStrList (ps.attach.map (fun x => describe x.1)) ++ ")".data
  | .orP _ => "<pypgen.OrParser object>".data
  | .kleene p => "KleeneParser(".data ++ describe p ++ ")".data
  | .regexP src _ => "RegexParser(".data ++ src ++ ")".data
  | .lit s => "LiteralParser(".data ++ s ++ ")".data
decreasing_by
  all_goals simp_wf
  all_goals try { have := List.sizeOf_lt_of_mem x.2; omega }
  all_goals omega

/-- `LiteralParser.parse`: `startswith` prefix test; on success the value is
`in_str[:len(s)]` and the rest `in_str[len(s):]`, otherwise
`Failure(s, in_str)`. -/
def litParse (t : List Char) (s : List Char) : ParseResult :=
  if t.isPrefixOf s then .success (.str (s.take t.length)) (s.drop t.length)
  else .failure (.str t) s

/-- `RegexParser.parse`: anchored `self.regex.match(in_str)`.  On a match
ending after `s.length - rest.length` characters the value is
`match.group()` (= the input up to the match end, since the match is
anchored at 0) and the rest `in_str[match.end():]`; otherwise
`Failure(self.regex.pattern, in_str)`. -/
def regexParse (src : List Char) (r : Regex) (s : List Char) : ParseResult :=
  match reMatch r s with
  | some rest => .success (.str (s.take (s.length - rest.length))) rest
  | none => .failure (.str src) s

/-- The `for` loop of `SeqParser.parse`: thread the remaining input through
the children in order, accumulating `result_values`; the first child
`Failure` is returned as-is, and full success yields the value tuple.
`pf` is the interpreter used on the children. -/
def seqLoop (pf : Parser → List Char → Option ParseResult) :
    List Parser → List Char → List PyVal → Option ParseResult
  | [], s, acc => some (.success (.tup acc) s)
  | p :: ps, s, acc =>
    match pf p s with
    | none => none
    | some (.failure e r) => some (.failure e r)
    | some (.success v r) => seqLoop pf ps r (acc ++ [v])

/-- The `for` loop of `OrParser.parse`: every child is tried on the same
original `input`; the first `Success` is returned verbatim, and if all
children fail the result is `Failure([str(p) for p in all], input)`. -/
def orLoop (pf : Parser → List Char → Option ParseResult)
    (all : List Parser) (input : List Char) : List Parser → Option ParseResult
  | [] => some (.failure (.list (all.map describe)) input)
  | p :: ps =>
    match pf p input with
    | none => none
    | some (.success v r) => some (.success v r)
    | some (.failure _ _) => orLoop pf all input ps

/-- The `while` loop of `KleeneParser.parse`: apply the child (`pf`) to the
remaining input, collecting success values into `results`, until it fails;
then return `Success(results, result.rest)` where `result` is the final
`Failure`.  The `Nat` bounds the number of iterations (the Python loop has
no such bound and can diverge); `none` means the bound was exhausted. -/
def kleeneLoop (pf : List Char → Option ParseResult) :
    Nat → List Char → List PyVal → Option ParseResult
  | 0, _, _ => none
  | k + 1, s, acc =>
    match pf s with
    | none => none
    | some (.failure _ r) => some (.success (.list acc) r)
    | some (.success v r) => kleeneLoop pf k r (acc ++ [v])

/-- The interpreter: `parse fuel p s` runs `p.parse(s)` with at most `fuel`
recursive steps, returning `none` when the fuel runs out (in particular the
Python nonterminating runs are exactly those that are `none` at every
fuel). -/
def parse : Nat → Parser → List Char → Option ParseResult
  | 0, _, _ => none
  | f + 1, p, s =>
    match p with
    | .lit t => some (litParse t s)
    | .regexP src r => some (regexParse src r s)
    | .trans q fn _ =>
      match parse f q s with
      | none => none
      | some (.failure e r) => some (.failure e r)
      | some (.success v r) => some (.success (fn v) r)
    | .seqP ps => seqLoop (parse f) ps s []
    | .orP ps => orLoop (parse f) ps s ps
    | .kleene q => kleeneLoop (parse f q) (f + 1) s []

/-- `Parser.then` with method dispatch: `SeqParser.then` extends the flat
child list, every other class uses the base-class method building
`SeqParser(self, next_parser)`. -/
def Parser.thenP : Parser → Parser → Parser
  | .seqP ps, q => .seqP (ps ++ [q])
  | p, q => .seqP [p, q]

/-- `Parser.oor` with method dispatch: `OrParser.oor` extends the flat
child list, every other class builds `OrParser(self, alt_parser)`. -/
def Parser.oor : Parser → Parser → Parser
  | .orP ps, q => .orP (ps ++ [q])
  | p, q => .orP [p, q]

/-- `Parser.w`: wrap in a `ResultTransformingParser`. -/
def Parser.w (p : Parser) (fn : PyVal → PyVal) (fnRepr : List Char) : Parser :=
  .trans p fn fnRepr

/-- The builtin `int()` applied to the decimal digit strings produced by
the `[0-9]+` atom (total on such strings; other values are irrelevant to
the grammars considered and passed through). -/
def pyInt : PyVal → PyVal
  | .str s => .int (s.foldl (fun a c => a * 10 + ((c.toNat : Int) - 48)) 0)
  | v => v

/-- The Python call `p.parse(s)` terminates with some result. -/
def Terminates (p : Parser) (s : List Char) : Prop :=
  ∃ f res, parse f p s = some res

/-- `KleeneRun X s vs frest`: starting from input `s`, repeated application
of the child `X` succeeds with values `vs` in order, after which `X` fails
with a `Failure` whose `rest` is `frest`. -/
inductive KleeneRun (X : Parser) : List Char → List PyVal → List Char → Prop where
  | stop : ∀ f s e frest, parse f X s = some (.failure e frest) →
      KleeneRun X s [] frest
  | step : ∀ f s v r vs frest, parse f X s = some (.success v r) →
      KleeneRun X r vs frest → KleeneRun X s (v :: vs) frest

/-- Re-attaching the accumulator of `kleeneLoop` to a result. -/
def prependVals (acc : List PyVal) : ParseResult → ParseResult
  | .success (.list vs) r => .success (.list (acc ++ vs)) r
  | .success (.str s) r => .success (.str s) r
  | .success (.int n) r => .success (.int n) r
  | .success (.tup ts) r => .success (.tup ts) r
  | .failure e r => .failure e r

/-- The character class `[0-9]`. -/
def digitTest : Char → Bool := fun c => c.isDigit

/-- The compiled form of the pattern `[0-9]+`. -/
def digitPlus : Regex := Regex.plus (.cls digitTest)

/-- The end-to-end grammar
`l("(").then(rep(r("[0-9]+").w(int))).then(l(")"))` built through the
builder methods (so the second `then` hits `SeqParser.then`).  The `"int"`
field stands for `str(int)`. -/
def endToEndGrammar : Parser :=
  ((Parser.lit "(".data).thenP
      (.kleene ((Parser.regexP "[0-9]+".data digitPlus).w pyInt "int".data))).thenP
    (.lit ")".data)

/-! ### Unfolding equations for `parse` -/

theorem parse_zero (p : Parser) (s : List Char) : parse 0 p s = none := rfl

theorem parse_lit (f : Nat) (t s : List Char) :
    parse (f + 1) (.lit t) s = some (litParse t s) := rfl

theorem parse_regexP (f : Nat) (src : List Char) (r : Regex) (s : List Char) :
    parse (f + 1) (.regexP src r) s = some (regexParse src r s) := rfl

theorem parse_trans (f : Nat) (q : Parser) (fn : PyVal → PyVal) (d s : List Char) :
    parse (f + 1) (.trans q fn d) s =
      match parse f q s with
      | none => none
      | some (.failure e r) => some (.failure e r)
      | some (.success v r) => some (.success (fn v) r) := rfl

theorem parse_seqP (f : Nat) (ps : List Parser) (s : List Char) :
    parse (f + 1) (.seqP ps) s = seqLoop (parse f) ps s [] := rfl

theorem parse_orP (f : Nat) (ps : List Parser) (s : List Char) :
    parse (f + 1) (.orP ps) s = orLoop (parse f) ps s ps := rfl

theorem parse_kleene (f : Nat) (q : Parser) (s : List Char) :
    parse (f + 1) (.kleene q) s = kleeneLoop (parse f q) (f + 1) s [] := rfl

/-! ### Fuel monotonicity and determinism of the interpreter -/

theorem seqLoop_mono {pf pf' : Parser → List Char → Option ParseResult}
    (h : ∀ p s res, pf p s = some res → pf' p s = some res) :
    ∀ l s acc res, seqLoop pf l s acc = some res → seqLoop pf' l s acc = some res := by
  intro l
  induction l with
  | nil => intro s acc res hres; simpa [seqLoop] using hres
  | cons p ps ih =>
    intro s acc res hres
    rw [seqLoop] at hres ⊢
    split at hres
    · simp at hres
    · next e r heq => rw [h _ _ _ heq]; exact hres
    · next v r heq => rw [h _ _ _ heq]; exact ih _ _ _ hres

theorem orLoop_mono {pf pf' : Parser → List Char → Option ParseResult}
    (h : ∀ p s res, pf p s = some res → pf' p s = some res) (all : List Parser)
    (input : List Char) :
    ∀ l res, orLoop pf all input l = some res → orLoop pf' all input l = some res := by
  intro l
  induction l with
  | nil => intro res hres; simpa [orLoop] using hres
  | cons p ps ih =>
    intro res hres
    rw [orLoop] at hres ⊢
    split at hres
    · simp at hres
    · next v r heq => rw [h _ _ _ heq]; exact hres
    · next e r heq => rw [h _ _ _ heq]; exact ih _ hres

theorem kleeneLoop_mono {pf pf' : List Char → Option ParseResult}
    (h : ∀ s res, pf s = some res → pf' s = some res) :
    ∀ k k' s acc res, k ≤ k' → kleeneLoop pf k s acc = some res →
      kleeneLoop pf' k' s acc = some res := by
  intro k
  induction k with
  | zero => intro k' s acc res _ hres; simp [kleeneLoop] at hres
  | succ k ih =>
    intro k' s acc res hk hres
    obtain ⟨k'', rfl⟩ : ∃ k'', k' = k'' + 1 := ⟨k' - 1, by omega⟩
    rw [kleeneLoop] at hres ⊢
    split at hres
    · simp at hres
    · next e r heq => rw [h _ _ heq]; exact hres
    · next v r heq => rw [h _ _ heq]; exact ih _ _ _ _ (by omega) hres

theorem parse_succ : ∀ f p s res, parse f p s = some res → parse (f + 1) p s = some res := by
  intro f
  induction f with
  | zero => intro p s res h; simp [parse] at h
  | succ f ih =>
    intro p s res h
    cases p with
    | lit t => exact h
    | regexP src r => exact h
    | trans q fn d =>
      rw [parse_trans] at h ⊢
      split at h
      · simp at h
      · next e r heq => rw [ih _ _ _ heq]; exact h
      · next v r heq => rw [ih _ _ _ heq]; exact h
    | seqP ps =>
      rw [parse_seqP] at h ⊢
      exact seqLoop_mono ih _ _ _ _ h
    | orP ps =>
      rw [parse_orP] at h ⊢
      exact orLoop_mono ih _ _ _ _ h
    | kleene q =>
      rw [parse_kleene] at h ⊢
      exact kleeneLoop_mono (fun s res => ih q s res) _ _ _ _ _ (Nat.le_succ _) h

theorem parse_mono {f f' : Nat} (hle : f ≤ f') {p : Parser} {s : List Char}
    {res : ParseResult} (h : parse f p s = some res) : parse f' p s = some res := by
  induction f', hle using Nat.le_induction with
  | base => exact h
  | succ n hn ih => exact parse_succ _ _ _ _ ih

theorem parse_det {f f' : Nat} {p : Parser} {s : List Char} {r1 r2 : ParseResult}
    (h1 : parse f p s = some r1) (h2 : parse f' p s = some r2) : r1 = r2 := by
  have e1 := parse_mono (Nat.le_max_left f f') h1
  have e2 := parse_mono (Nat.le_max_right f f') h2
  cases e1.symm.trans e2
  rfl

/-! ### The rest of every result is a suffix of the given input -/

theorem memOfHeadEq {α : Type} {l : List α} {a : α} (h : l.head? = some a) : a ∈ l := by
  cases l with
  | nil => simp at h
  | cons x xs => simp at h; simp [h]

theorem starAux_sfx {step : List Char → List (List Char)}
    (hstep : ∀ s t, t ∈ step s → ∃ u, u ++ t = s) :
    ∀ n s t, t ∈ starAux step n s → ∃ u, u ++ t = s := by
  intro n
  induction n with
  | zero => intro s t ht; rw [starAux] at ht; simp at ht; exact ⟨[], by simp [ht]⟩
  | succ n ih =>
    intro s t ht
    rw [starAux] at ht
    rcases List.mem_append.1 ht with hl | hr
    · rcases List.mem_flatMap.1 hl with ⟨t1, ht1, htt1⟩
      have ht1' := List.mem_filter.1 ht1
      rcases hstep s t1 ht1'.1 with ⟨u1, hu1⟩
      rcases ih t1 t htt1 with ⟨u2, hu2⟩
      exact ⟨u1 ++ u2, by rw [List.append_assoc, hu2, hu1]⟩
    · simp at hr; exact ⟨[], by simp [hr]⟩

theorem runs_sfx : ∀ (r : Regex) (s t : List Char), t ∈ runs r s → ∃ u, u ++ t = s := by
  intro r
  induction r with
  | eps => intro s t ht; rw [runs] at ht; simp at ht; exact ⟨[], by simp [ht]⟩
  | char c =>
    intro s t ht
    cases s with
    | nil => rw [runs] at ht; simp at ht
    | cons x xs =>
      rw [runs] at ht
      split at ht
      · simp at ht; exact ⟨[x], by simp [ht]⟩
      · simp at ht
  | cls fc =>
    intro s t ht
    cases s with
    | nil => rw [runs] at ht; simp at ht
    | cons x xs =>
      rw [runs] at ht
      split at ht
      · simp at ht; exact ⟨[x], by simp [ht]⟩
      · simp at ht
  | seq a b iha ihb =>
    intro s t ht
    rw [runs] at ht
    rcases List.mem_flatMap.1 ht with ⟨t1, ht1, htt1⟩
    rcases iha s t1 ht1 with ⟨u1, hu1⟩
    rcases ihb t1 t htt1 with ⟨u2, hu2⟩
    exact ⟨u1 ++ u2, by rw [List.append_assoc, hu2, hu1]⟩
  | alt a b iha ihb =>
    intro s t ht
    rw [runs] at ht
    rcases List.mem_append.1 ht with hl | hr
    · exact iha s t hl
    · exact ihb s t hr
  | star a iha =>
    intro s t ht
    rw [runs] at ht
    exact starAux_sfx iha s.length s t ht

theorem litParse_rest_sfx (t s : List Char) : ∃ u, u ++ (litParse t s).rest = s := by
  rw [litParse]
  split
  · exact ⟨s.take t.length, by simp [ParseResult.rest]⟩
  · exact ⟨[], rfl⟩

theorem regexParse_rest_sfx (src : List Char) (r : Regex) (s : List Char) :
    ∃ u, u ++ (regexParse src r s).rest = s := by
  rw [regexParse]
  rcases h : reMatch r s with _ | rest
  · exact ⟨[], rfl⟩
  · rcases runs_sfx r s rest (memOfHeadEq h) with ⟨u, hu⟩
    exact ⟨u, hu⟩

theorem seqLoop_sfx {pf : Parser → List Char → Option ParseResult}
    (hpf : ∀ p s res, pf p s = some res → ∃ t, t ++ res.rest = s) :
    ∀ l s acc res, seqLoop pf l s acc = some res → ∃ t, t ++ res.rest = s := by
  intro l
  induction l with
  | nil =>
    intro s acc res hres
    rw [seqLoop] at hres
    cases hres
    exact ⟨[], rfl⟩
  | cons p ps ih =>
    intro s acc res hres
    rw [seqLoop] at hres
    split at hres
    · simp at hres
    · next e r heq => cases hres; exact hpf _ _ _ heq
    · next v r heq =>
      rcases hpf _ _ _ heq with ⟨u, hu⟩
      rcases ih _ _ _ hres with ⟨t', ht'⟩
      exact ⟨u ++ t', by rw [List.append_assoc, ht']; exact hu⟩

theorem orLoop_sfx {pf : Parser → List Char → Option ParseResult}
    (hpf : ∀ p s res, pf p s = some res → ∃ t, t ++ res.rest = s)
    (all : List Parser) (input : List Char) :
    ∀ l res, orLoop pf all input l = some res → ∃ t, t ++ res.rest = input := by
  intro l
  induction l with
  | nil => intro res hres; rw [orLoop] at hres; cases hres; exact ⟨[], rfl⟩
  | cons p ps ih =>
    intro res hres
    rw [orLoop] at hres
    split at hres
    · simp at hres
    · next v r heq => cases hres; exact hpf _ _ _ heq
    · next e r heq => exact ih _ hres

theorem kleeneLoop_sfx {pf : List Char → Option ParseResult}
    (hpf : ∀ s res, pf s = some res → ∃ t, t ++ res.rest = s) :
    ∀ k s acc res, kleeneLoop pf k s acc = some res → ∃ t, t ++ res.rest = s := by
  intro k
  induction k with
  | zero => intro s acc res hres; simp [kleeneLoop] at hres
  | succ k ih =>
    intro s acc res hres
    rw [kleeneLoop] at hres
    split at hres
    · simp at hres
    · next e r heq =>
      cases hres
      rcases hpf _ _ heq with ⟨u, hu⟩
      exact ⟨u, hu⟩
    · next v r heq =>
      rcases hpf _ _ heq with ⟨u, hu⟩
      rcases ih _ _ _ hres with ⟨t', ht'⟩
      exact ⟨u ++ t', by rw [List.append_assoc, ht']; exact hu⟩

theorem parse_rest_sfx :
    ∀ f p s res, parse f p s = some res → ∃ t, t ++ res.rest = s := by
  intro f
  induction f with
  | zero => intro p s res h; rw [parse_zero] at h; simp at h
  | succ f ih =>
    intro p s res h
    cases p with
    | lit t => rw [parse_lit] at h; cases h; exact litParse_rest_sfx _ _
    | regexP src r => rw [parse_regexP] at h; cases h; exact regexParse_rest_sfx _ _ _
    | trans q fn d =>
      rw [parse_trans] at h
      split at h
      · simp at h
      · next e r heq => cases h; exact ih _ _ _ heq
      · next v r heq =>
        cases h
        rcases ih _ _ _ heq with ⟨t, ht⟩
        exact ⟨t, ht⟩
    | seqP ps => rw [parse_seqP] at h; exact seqLoop_sfx ih _ _ _ _ h
    | orP ps => rw [parse_orP] at h; exact orLoop_sfx ih _ _ _ _ h
    | kleene q => rw [parse_kleene] at h; exact kleeneLoop_sfx (ih q) _ _ _ _ h

/-! ### The Kleene loop: accumulator, divergence and characterization -/

theorem prependVals_comp (a b : List PyVal) (res : ParseResult) :
    prependVals a (prependVals b res) = prependVals (a ++ b) res := by
  rcases res with ⟨v, r⟩ | ⟨e, r⟩
  · rcases v with s | n | ts | vs <;> simp [prependVals]
  · simp [prependVals]

theorem kleeneLoop_acc {pf : List Char → Option ParseResult} :
    ∀ k s acc, kleeneLoop pf k s acc = (kleeneLoop pf k s []).map (prependVals acc) := by
  intro k
  induction k with
  | zero => intro s acc; simp [kleeneLoop]
  | succ k ih =>
    intro s acc
    rw [kleeneLoop]
    conv_rhs => rw [kleeneLoop]
    rcases hpf : pf s with _ | res
    · simp
    · rcases res with ⟨v, r⟩ | ⟨e, r⟩
      · dsimp only
        rw [List.nil_append, ih r (acc ++ [v]), ih r [v], Option.map_map]
        congr 1
        funext res
        exact (prependVals_comp acc [v] res).symm
      · simp [prependVals]

theorem seqLoop_append_failure {pf : Parser → List Char → Option ParseResult} :
    ∀ (l l' : List Parser) (s : List Char) (acc : List PyVal) (e : Expected)
      (r : List Char), seqLoop pf l s acc = some (.failure e r) →
      seqLoop pf (l ++ l') s acc = some (.failure e r) := by
  intro l
  induction l with
  | nil => intro l' s acc e r h; rw [seqLoop] at h; simp at h
  | cons p ps ih =>
    intro l' s acc e r h
    rw [seqLoop] at h
    rw [List.cons_append, seqLoop]
    split at h
    · simp at h
    · next e' r' heq => exact h
    · next v r' heq => exact ih _ _ _ _ _ h

theorem kleeneLoop_stuck {pf : List Char → Option ParseResult} {s : List Char}
    (h : pf s = none ∨ ∃ v, pf s = some (.success v s)) :
    ∀ k acc, kleeneLoop pf k s acc = none := by
  intro k
  induction k with
  | zero => intro acc; rfl
  | succ k ih =>
    intro acc
    rw [kleeneLoop]
    rcases h with hn | ⟨v, hv⟩
    · rw [hn]
    · rw [hv]
      exact ih _

/-- The zero-width hazard: if the child `X` can succeed on `input` while
consuming nothing, the Python `KleeneParser.parse` loop never terminates on
`input` (there is no progress safeguard in the code). -/
theorem kleene_diverges {X : Parser} {input : List Char} {f₀ : Nat} {v : PyVal}
    (h : parse f₀ X input = some (.success v input)) :
    ∀ f, parse f (.kleene X) input = none := by
  intro f
  cases f with
  | zero => rfl
  | succ f =>
    rw [parse_kleene]
    apply kleeneLoop_stuck
    rcases hf : parse f X input with _ | res
    · exact Or.inl rfl
    · have hres := parse_det hf h
      exact Or.inr ⟨v, by rw [hres]⟩

theorem kleeneLoop_sound {X : Parser} {f : Nat} :
    ∀ k s acc res, kleeneLoop (parse f X) k s acc = some res →
      ∃ vs frest, res = .success (.list (acc ++ vs)) frest ∧ KleeneRun X s vs frest := by
  intro k
  induction k with
  | zero => intro s acc res h; simp [kleeneLoop] at h
  | succ k ih =>
    intro s acc res h
    rw [kleeneLoop] at h
    split at h
    · simp at h
    · next e r heq =>
      cases h
      exact ⟨[], r, by simp, KleeneRun.stop f s e r heq⟩
    · next v r heq =>
      rcases ih _ _ _ h with ⟨vs', frest, hres, hrun⟩
      refine ⟨v :: vs', frest, ?_, KleeneRun.step f s v r vs' frest heq hrun⟩
      rw [hres]
      simp

theorem kleene_sound {X : Parser} {s : List Char} {res : ParseResult} {F : Nat}
    (h : parse F (.kleene X) s = some res) :
    ∃ vs frest, res = .success (.list vs) frest ∧ KleeneRun X s vs frest := by
  cases F with
  | zero => rw [parse_zero] at h; simp at h
  | succ F =>
    rw [parse_kleene] at h
    rcases kleeneLoop_sound _ _ _ _ h with ⟨vs, frest, hres, hrun⟩
    exact ⟨vs, frest, by simpa using hres, hrun⟩

theorem kleene_complete {X : Parser} {s : List Char} {vs : List PyVal}
    {frest : List Char} (h : KleeneRun X s vs frest) :
    ∃ F, parse F (.kleene X) s = some (.success (.list vs) frest) := by
  induction h with
  | stop f s e frest heq =>
    refine ⟨f + 1, ?_⟩
    rw [parse_kleene, kleeneLoop, heq]
  | step f s v r vs frest heq hrun ih =>
    rcases ih with ⟨g, hg⟩
    cases g with
    | zero => rw [parse_zero] at hg; simp at hg
    | succ g' =>
      rw [parse_kleene] at hg
      refine ⟨max f g' + 2, ?_⟩
      rw [parse_kleene, kleeneLoop]
      have hx : parse (max f g' + 1) X s = some (.success v r) :=
        parse_mono (by omega) heq
      rw [hx]
      dsimp only
      have hmono : kleeneLoop (parse (max f g' + 1) X) (max f g' + 1) r [] =
          some (.success (.list vs) frest) :=
        kleeneLoop_mono (fun s res hres => parse_mono (by omega) hres)
          _ _ _ _ _ (by omega) hg
      rw [kleeneLoop_acc, hmono]
      simp [prependVals]

/-! ### Helper facts for the claim theorems -/

theorem isPrefixOfAppend : ∀ s x : List Char, s.isPrefixOf (s ++ x) = true := by
  intro s
  induction s with
  | nil => intro x; cases x <;> rfl
  | cons c cs ih => intro x; simp [List.isPrefixOf, ih]

theorem orLoop_all_fail {pf : Parser → List Char → Option ParseResult}
    (all : List Parser) (input : List Char) :
    ∀ l, (∀ p ∈ l, ∃ e r, pf p input = some (.failure e r)) →
      orLoop pf all input l = some (.failure (.list (all.map describe)) input) := by
  intro l
  induction l with
  | nil => intro _; rw [orLoop]
  | cons p ps ih =>
    intro h
    rcases h p (List.mem_cons_self p ps) with ⟨e, r, heq⟩
    rw [orLoop, heq]
    exact ih (fun q hq => h q (List.mem_cons_of_mem p hq))

theorem orLoop_first_success {pf : Parser → List Char → Option ParseResult}
    (all : List Parser) (input : List Char) :
    ∀ l₁ (p : Parser) l₂ (v : PyVal) (rest : List Char),
      (∀ q ∈ l₁, ∃ e r, pf q input = some (.failure e r)) →
      pf p input = some (.success v rest) →
      orLoop pf all input (l₁ ++ p :: l₂) = some (.success v rest) := by
  intro l₁
  induction l₁ with
  | nil =>
    intro p l₂ v rest _ hp
    rw [List.nil_append, orLoop, hp]
  | cons q qs ih =>
    intro p l₂ v rest h hp
    rcases h q (List.mem_cons_self q qs) with ⟨e, r, heq⟩
    rw [List.cons_append, orLoop, heq]
    exact ih p l₂ v rest (fun q' hq' => h q' (List.mem_cons_of_mem q hq')) hp

/-! ### The claims -/

/-- C1 (counterexample): the claim that `repeat(X).parse(input)` always
returns `rest` = the input remaining after the last successful repetition
(= `input` itself when `X` fails immediately) is false for children whose
`Failure` carries a rest different from the input they were given: for
`X = SeqParser(lit "a", lit "b")` and input `"ax"`, `X` fails immediately
(third conjunct) yet `repeat(X).parse("ax")` returns `rest = "x"`, not
`"ax"`. -/
theorem kleene_rest_claim_counterexample :
    parse 6 (.kleene (.seqP [.lit ['a'], .lit ['b']])) ['a', 'x'] =
      some (.success (.list []) ['x'])
    ∧ (['x'] : List Char) ≠ ['a', 'x']
    ∧ parse 5 (.seqP [.lit ['a'], .lit ['b']]) ['a', 'x'] =
      some (.failure (.str ['b']) ['x']) :=
  ⟨rfl, by decide, rfl⟩

/-- C1 (amended): `repeat(X).parse(input)` terminates exactly on the runs
where repeated application of `X` eventually fails, and then returns a
`Success` whose value is the ordered list of the values of the successful
repetitions and whose `rest` is the `rest` field of the `Failure` with
which `X` finally fails (for children whose failures return their input
unchanged — e.g. atoms — that equals the input remaining after the last
successful repetition, or the original input if zero repetitions
occurred). -/
theorem kleene_value_and_rest (X : Parser) (input : List Char) (res : ParseResult) :
    (∃ F, parse F (.kleene X) input = some res) ↔
      ∃ vs frest, KleeneRun X input vs frest ∧ res = .success (.list vs) frest := by
  constructor
  · rintro ⟨F, hF⟩
    rcases kleene_sound hF with ⟨vs, frest, hres, hrun⟩
    exact ⟨vs, frest, hrun, hres⟩
  · rintro ⟨vs, frest, hrun, rfl⟩
    exact kleene_complete hrun

/-- C2 (counterexample): on `"(12)(34)"` the end-to-end grammar returns the
flat 3-tuple `("(", [12], ")")` with `rest = "(34)"`, not the nested
two-level tuple `(("(", [12]), ")")` the claim states: `SeqParser.then`
extends the flat child list instead of nesting. -/
theorem endToEnd_nested_counterexample :
    parse 12 endToEndGrammar "(12)(34)".data =
      some (.success (.tup [.str "(".data, .list [.int 12], .str ")".data]) "(34)".data)
    ∧ PyVal.tup [.str "(".data, .list [.int 12], .str ")".data] ≠
        PyVal.tup [.tup [.str "(".data, .list [.int 12]], .str ")".data] :=
  ⟨rfl, by simp⟩

/-- C2 (amended): `literal("(").then(repeat(regex("[0-9]+").map(int))).then(literal(")"))`
applied to `"(12)(34)"` returns `Success` with value the flat 3-tuple
`("(", [12], ")")` — one entry per child of the single flat sequence — and
`rest = "(34)"`. -/
theorem endToEnd_flat_value :
    parse 12 endToEndGrammar "(12)(34)".data =
      some (.success (.tup [.str "(".data, .list [.int 12], .str ")".data]) "(34)".data) :=
  rfl

/-- C3: alternation tries its children in order against the same original
input.  If every child fails, the result is a single `Failure` whose
`expected` is the ordered list of the children's descriptions (exactly one
entry per child, in try order) and whose `rest` is the original input; if
the children before some child all fail and that child succeeds, its
`Success` is returned verbatim. -/
theorem orParser_spec (f : Nat) (ps : List Parser) (input : List Char) :
    ((∀ p ∈ ps, ∃ e r, parse f p input = some (.failure e r)) →
      parse (f + 1) (.orP ps) input =
        some (.failure (.list (ps.map describe)) input))
    ∧ (∀ ps₁ (p : Parser) ps₂ (v : PyVal) (rest : List Char),
        ps = ps₁ ++ p :: ps₂ →
        (∀ q ∈ ps₁, ∃ e r, parse f q input = some (.failure e r)) →
        parse f p input = some (.success v rest) →
        parse (f + 1) (.orP ps) input = some (.success v rest)) := by
  constructor
  · intro h
    rw [parse_orP]
    exact orLoop_all_fail ps input ps h
  · intro ps₁ p ps₂ v rest hps h hp
    rw [parse_orP, hps]
    exact orLoop_first_success _ input ps₁ p ps₂ v rest h hp

/-- C3 (witness): with children `[lit "a", lit "b", lit "c"]` — on `"x"`
all three fail and the alternation aggregates their three descriptions in
order with `rest = "x"`; on `"b"` the first child fails and the second
succeeds, and that success is returned verbatim. -/
theorem orParser_spec_witness :
    parse 2 (.orP [.lit ['a'], .lit ['b'], .lit ['c']]) ['x'] =
      some (.failure
        (.list ([Parser.lit ['a'], Parser.lit ['b'], Parser.lit ['c']].map describe))
        ['x'])
    ∧ parse 2 (.orP [.lit ['a'], .lit ['b'], .lit ['c']]) ['b'] =
      some (.success (.str ['b']) []) :=
  ⟨(orParser_spec 1 [.lit ['a'], .lit ['b'], .lit ['c']] ['x']).1
      (by intro p hp; fin_cases hp <;> exact ⟨_, _, rfl⟩),
   (orParser_spec 1 [.lit ['a'], .lit ['b'], .lit ['c']] ['b']).2
      [.lit ['a']] (.lit ['b']) [.lit ['c']] (.str ['b']) [] rfl
      (by intro q hq; fin_cases hq; exact ⟨_, _, rfl⟩) rfl⟩

/-- C4: when `A` fails on an input, `A.then(B).parse(input)` returns
exactly `A`'s failure — same `expected`, same `rest` — uniformly in `B`
(so the result never depends on `B`, reflecting that `B.parse` is never
invoked).  The `f + 1` accounts for the extra dispatch step of the
enclosing sequence in the fuel-indexed interpreter. -/
theorem seq_propagates_first_failure (f : Nat) (A B : Parser) (input : List Char)
    (e : Expected) (r : List Char) (h : parse f A input = some (.failure e r)) :
    parse (f + 1) (A.thenP B) input = some (.failure e r) := by
  cases f with
  | zero => rw [parse_zero] at h; simp at h
  | succ f =>
    cases A with
    | seqP ps =>
      rw [parse_seqP] at h
      have h' := seqLoop_mono (fun p s res hres => parse_succ f p s res hres) _ _ _ _ h
      simp only [Parser.thenP]
      rw [parse_seqP]
      exact seqLoop_append_failure ps [B] input [] e r h'
    | trans q fn d => simp only [Parser.thenP]; rw [parse_seqP, seqLoop, h]
    | orP l => simp only [Parser.thenP]; rw [parse_seqP, seqLoop, h]
    | kleene p => simp only [Parser.thenP]; rw [parse_seqP, seqLoop, h]
    | regexP src rg => simp only [Parser.thenP]; rw [parse_seqP, seqLoop, h]
    | lit t => simp only [Parser.thenP]; rw [parse_seqP, seqLoop, h]

/-- C4 (witness): `lit "a"` fails on `"x"`, and `lit("a").then(lit("b"))`
returns exactly that failure. -/
theorem seq_propagates_first_failure_witness :
    parse 2 ((Parser.lit ['a']).thenP (.lit ['b'])) ['x'] =
      some (.failure (.str ['a']) ['x']) :=
  seq_propagates_first_failure 1 (.lit ['a']) (.lit ['b']) ['x'] (.str ['a']) ['x'] rfl

/-- C5: `literal(s)` is a character-exact anchored prefix test:
`literal(s).parse(s + x)` succeeds with `value = s`, `rest = x`, and on any
input that does not start with `s` it fails with `expected = s` and the
input unchanged as `rest`. -/
theorem literal_exactness (s x y : List Char) (f : Nat) :
    parse (f + 1) (.lit s) (s ++ x) = some (.success (.str s) x)
    ∧ (s.isPrefixOf y = false →
        parse (f + 1) (.lit s) y = some (.failure (.str s) y)) := by
  constructor
  · rw [parse_lit, litParse, if_pos (by rw [isPrefixOfAppend])]
    rw [List.take_left, List.drop_left]
  · intro hy
    rw [parse_lit, litParse, if_neg (by rw [hy]; simp)]

/-- C5 (witness): `literal("ab")` on `"abc"` and on `"ax"`. -/
theorem literal_exactness_witness :
    parse 1 (.lit ['a', 'b']) ['a', 'b', 'c'] =
      some (.success (.str ['a', 'b']) ['c'])
    ∧ parse 1 (.lit ['a', 'b']) ['a', 'x'] =
      some (.failure (.str ['a', 'b']) ['a', 'x']) :=
  ⟨(literal_exactness ['a', 'b'] ['c'] ['a', 'x'] 0).1,
   (literal_exactness ['a', 'b'] ['c'] ['a', 'x'] 0).2 (by decide)⟩

/-- C6: `regex(p).parse(input)` only consults the anchored match at
position 0: with no anchored match it fails with `expected` = the pattern
source and `rest = input` — even when the pattern matches at a later
position (third conjunct) — and on an anchored match ending at
`input.length - rest.length` it succeeds with `value` = the full matched
substring (`value ++ rest = input`) and `rest` = the input after the match
end. -/
theorem regex_anchored_spec (src : List Char) (r : Regex) (input : List Char) (f : Nat) :
    (reMatch r input = none →
      parse (f + 1) (.regexP src r) input = some (.failure (.str src) input))
    ∧ (∀ rest, reMatch r input = some rest →
        parse (f + 1) (.regexP src r) input =
          some (.success (.str (input.take (input.length - rest.length))) rest)
        ∧ input.take (input.length - rest.length) ++ rest = input)
    ∧ (∀ i rest, reMatch r input = none → 0 < i →
        reMatch r (input.drop i) = some rest →
        parse (f + 1) (.regexP src r) input = some (.failure (.str src) input)) := by
  refine ⟨?_, ?_, ?_⟩
  · intro h
    rw [parse_regexP, regexParse, h]
  · intro rest h
    constructor
    · rw [parse_regexP, regexParse, h]
    · rcases runs_sfx r input rest (memOfHeadEq h) with ⟨u, hu⟩
      subst hu
      simp [List.length_append, Nat.add_sub_cancel, List.take_left]
  · intro i rest h _ _
    rw [parse_regexP, regexParse, h]

/-- C6 (witness): with the pattern `[0-9]+` — on `"ab"` no anchored match,
so failure with the input unchanged; on `"12x"` the anchored match is
`"12"`, value ++ rest reassembles the input; on `"x12"` the pattern
matches at position 1 but not 0, and the parse still fails with
`rest = input`. -/
theorem regex_anchored_spec_witness :
    parse 1 (.regexP "[0-9]+".data digitPlus) "ab".data =
      some (.failure (.str "[0-9]+".data) "ab".data)
    ∧ parse 1 (.regexP "[0-9]+".data digitPlus) "12x".data =
      some (.success
        (.str ("12x".data.take ("12x".data.length - "x".data.length))) "x".data)
    ∧ "12x".data.take ("12x".data.length - "x".data.length) ++ "x".data = "12x".data
    ∧ parse 1 (.regexP "[0-9]+".data digitPlus) "x12".data =
      some (.failure (.str "[0-9]+".data) "x12".data) :=
  ⟨(regex_anchored_spec "[0-9]+".data digitPlus "ab".data 0).1 rfl,
   ((regex_anchored_spec "[0-9]+".data digitPlus "12x".data 0).2.1 "x".data rfl).1,
   ((regex_anchored_spec "[0-9]+".data digitPlus "12x".data 0).2.1 "x".data rfl).2,
   (regex_anchored_spec "[0-9]+".data digitPlus "x12".data 0).2.2 1 "".data rfl
     (by decide) rfl⟩

/-- C7: the builder methods are pure constructions (total Lean functions
that never run `parse` and never fail): `then` on an existing sequence
appends to the flat child list, `or_else`/`oor` on an existing alternation
appends to the flat child list, and chaining `then` from a non-sequence
atom builds the single flat sequence `[A, B, C]`. -/
theorem builders_extend_flat (ps : List Parser) (q A B C : Parser) :
    (Parser.seqP ps).thenP q = .seqP (ps ++ [q])
    ∧ (Parser.orP ps).oor q = .orP (ps ++ [q])
    ∧ ((∀ ps', A ≠ .seqP ps') → (A.thenP B).thenP C = .seqP [A, B, C]) := by
  refine ⟨rfl, rfl, ?_⟩
  intro hA
  cases A with
  | seqP ps' => exact absurd rfl (hA ps')
  | trans q' fn d => rfl
  | orP l => rfl
  | kleene p' => rfl
  | regexP s' r' => rfl
  | lit t => rfl

/-- C7 (witness): concrete flat extension for sequence and alternation and
the three-way chain from the atom `lit "a"`. -/
theorem builders_extend_flat_witness :
    (Parser.seqP [.lit ['a']]).thenP (.lit ['b']) = .seqP [.lit ['a'], .lit ['b']]
    ∧ (Parser.orP [.lit ['a']]).oor (.lit ['b']) = .orP [.lit ['a'], .lit ['b']]
    ∧ ((Parser.lit ['a']).thenP (.lit ['b'])).thenP (.lit ['c']) =
        .seqP [.lit ['a'], .lit ['b'], .lit ['c']] :=
  ⟨(builders_extend_flat [.lit ['a']] (.lit ['b']) (.lit ['a']) (.lit ['b'])
      (.lit ['c'])).1,
   (builders_extend_flat [.lit ['a']] (.lit ['b']) (.lit ['a']) (.lit ['b'])
      (.lit ['c'])).2.1,
   (builders_extend_flat [.lit ['a']] (.lit ['b']) (.lit ['a']) (.lit ['b'])
      (.lit ['c'])).2.2 (fun _ h => Parser.noConfusion h)⟩

/-- C8: `repeat(X).parse` terminates on every input when the child `X` is
total and every `Success` of `X` strictly consumes input; conversely, when
`X` succeeds on `input` without consuming anything, the repetition loop
never terminates on `input` (the code has no progress safeguard). -/
theorem kleene_termination (X : Parser) :
    ((∀ s, Terminates X s) →
      (∀ f s v r, parse f X s = some (.success v r) → r.length < s.length) →
      ∀ input, Terminates (.kleene X) input)
    ∧ (∀ input f₀ v, parse f₀ X input = some (.success v input) →
        ∀ f, parse f (.kleene X) input = none) := by
  constructor
  · intro htot hprog input
    have main : ∀ n (inp : List Char), inp.length ≤ n → Terminates (.kleene X) inp := by
      intro n
      induction n using Nat.strong_induction_on with
      | _ n ih =>
        intro inp hlen
        rcases htot inp with ⟨f, res, hres⟩
        rcases res with ⟨v, r⟩ | ⟨e, frest⟩
        · have hlt := hprog f inp v r hres
          rcases n with _ | n'
          · omega
          · rcases ih r.length (by omega) r (le_refl _) with ⟨F, res', hres'⟩
            rcases kleene_sound hres' with ⟨vs, frest, rfl, hrun⟩
            rcases kleene_complete
                (KleeneRun.step f inp v r vs frest hres hrun) with ⟨F', hF'⟩
            exact ⟨F', _, hF'⟩
        · rcases kleene_complete (KleeneRun.stop f inp e frest hres) with ⟨F, hF⟩
          exact ⟨F, _, hF⟩
    exact main input.length input (le_refl _)
  · intro input f₀ v h f
    exact kleene_diverges h f

/-- C8 (witness): `lit "a"` is total and strictly consuming, so
`repeat(lit "a")` terminates on `"ab"`; `lit ""` succeeds on `"q"` without
consuming, and `repeat(lit "")` returns no result at any fuel (here 9). -/
theorem kleene_termination_witness :
    Terminates (.kleene (.lit ['a'])) ['a', 'b']
    ∧ parse 9 (.kleene (.lit [])) ['q'] = none :=
  ⟨(kleene_termination (.lit ['a'])).1
      (fun s => ⟨1, litParse ['a'] s, rfl⟩)
      (fun f s v r h => by
        cases f with
        | zero => rw [parse_zero] at h; simp at h
        | succ f =>
          rw [parse_lit, litParse] at h
          split at h
          · next hpre =>
            cases h
            cases s with
            | nil => simp [List.isPrefixOf] at hpre
            | cons c cs => simp
          · simp at h)
      ['a', 'b'],
   (kleene_termination (.lit [])).2 ['q'] 1 (.str []) rfl 9⟩

/-- C9: every `Success` any combinator returns has a `rest` that is a
suffix of the input given to that `parse` call: the consumed part is an
initial segment and `consumed ++ rest = input`. -/
theorem parse_consumes_from_front (f : Nat) (p : Parser) (input : List Char)
    (v : PyVal) (r : List Char) (h : parse f p input = some (.success v r)) :
    input.take (input.length - r.length) ++ r = input := by
  rcases parse_rest_sfx f p input _ h with ⟨t, ht⟩
  simp only [ParseResult.rest] at ht
  subst ht
  simp [List.length_append, Nat.add_sub_cancel, List.take_left]

/-- C9 (witness): `lit "a"` on `"ab"` leaves `rest = "b"`, a suffix. -/
theorem parse_consumes_from_front_witness :
    ['a', 'b'].take (['a', 'b'].length - ['b'].length) ++ ['b'] = ['a', 'b'] :=
  parse_consumes_from_front 1 (.lit ['a']) ['a', 'b'] (.str ['a']) ['b'] rfl

/-- C10: `literal("")` succeeds on every input (including `""`) with
`value = ""` and `rest = input` — it never fails and consumes nothing —
and wrapping it in `repeat` triggers the nontermination hazard: the
repetition returns no result at any fuel. -/
theorem empty_literal_spec (input : List Char) (f : Nat) :
    parse (f + 1) (.lit []) input = some (.success (.str []) input)
    ∧ parse f (.kleene (.lit [])) input = none := by
  constructor
  · rw [parse_lit, litParse, if_pos (by simp)]
    simp
  · exact kleene_diverges
      (show parse 1 (.lit []) input = some (.success (.str []) input) by
        rw [parse_lit, litParse, if_pos (by simp)]
        simp) f

end Pypgen
